import Mathlib

/-!
Shallow embedding of `src/solver/L2/include/hw/MatrixDecomposition/getrf_nopivot.hpp`
(Vitis Libraries, LU decomposition without pivoting).

The C++ numeric type `T` (float/double) is modelled by exact rational
arithmetic (`ℚ`), i.e. the idealized exact-arithmetic semantics of the code.
C++ arrays are modelled as total functions from indices to values; an
assignment becomes a pointwise functional update.  Uninitialized stack
arrays (the internal buffer `matA`, and the per-sweep `pivot` array) are
modelled by explicit "garbage" parameters giving their initial contents,
so that properties about (in)dependence on uninitialized memory can be
stated.  C++ `for` loops become folds (`loop`) applying the body at
indices 0, 1, …, count-1 in increasing order.

Index arithmetic: the source computes loop bounds with `int` arithmetic.
All quantities are nonnegative in every reachable call, and we use ℕ.
The only care point is `nrows = re - rs + 1` in `rowUpdate`, which is
rendered as `re + 1 - rs` so that ℕ truncation agrees with the `int`
value at every call the algorithm makes (`rs ≤ re + 1` always holds
there, and both sides give 0 iterations when `rs = re + 1`).
-/

namespace XfSolver

/-- values of the numeric type `T`, modelled by exact rationals. -/
abbrev Val := ℚ

/-- lane-partitioned 3-D buffer `T[NCU][NRCU][NCMAX]`: lane, local row, column. -/
abbrev Mat3 := ℕ → ℕ → ℕ → Val

/-- iterate a loop body over indices `0, 1, …, k-1`, in increasing order. -/
def loop {α : Type} (f : ℕ → α → α) : ℕ → α → α
  | 0, a => a
  | k + 1, a => f k (loop f k a)

/-- assignment to one cell of a 2-D buffer. -/
def upd2 (A : ℕ → ℕ → Val) (r c : ℕ) (v : Val) : ℕ → ℕ → Val :=
  fun r' c' => if r' = r ∧ c' = c then v else A r' c'

/-- assignment to one cell of a lane-partitioned 3-D buffer. -/
def upd3 (A : Mat3) (i r c : ℕ) (v : Val) : Mat3 :=
  fun i' r' c' => if i' = i ∧ r' = r ∧ c' = c then v else A i' r' c'

/-- assignment to one cell of the linear external buffer. -/
def upd1 (A : ℕ → Val) (p : ℕ) (v : Val) : ℕ → Val :=
  fun p' => if p' = p then v else A p'

/-- embedding of `internal::rowUpdate<T, NRCU, NCMAX>(A, pivot, rs, re, cs, ce)`:
the flattened `LoopMulSub` loop, iterating `i` over `[0, nrows*ncols)` with
`r = i / ncols + rs`, `c = i % ncols + cs + 1`, performing
`A[r][c] = A[r][c] - A[r][cs] * pivot[c]`.
(`nrows = re - rs + 1` in the source; rendered `re + 1 - rs`, see header.) -/
def rowUpdate (A : ℕ → ℕ → Val) (pivot : ℕ → Val) (rs re cs ce : ℕ) : ℕ → ℕ → Val :=
  let nrows := re + 1 - rs
  let ncols := ce - cs
  loop (fun i M =>
    let r := i / ncols + rs
    let c := i % ncols + cs + 1
    upd2 M r c (M r c - M r cs * pivot c)) (nrows * ncols) A

/-- stage `LoopPivot` of `getrf_nopivot_core`: for `k = s, …, n-1` and each lane
`r < NCU`, `pivot[r][k] = A[s % NCU][s / NCU][k]`.  `pg0` is the
uninitialized initial content of the local `pivot` array. -/
def pivotStage (NCU n s : ℕ) (M : Mat3) (pg0 : ℕ → ℕ → Val) : ℕ → ℕ → Val :=
  loop (fun t piv =>
    loop (fun r piv' => upd2 piv' r (s + t) (M (s % NCU) (s / NCU) (s + t))) NCU piv)
    (n - s) pg0

/-- stage `LoopDiv` of `getrf_nopivot_core`: for `j = s+1, …, m-1`,
`A[j % NCU][j / NCU][s] = A[j % NCU][j / NCU][s] / a00`. -/
def divStage (NCU m s : ℕ) (a00 : Val) (M : Mat3) : Mat3 :=
  loop (fun t N =>
    upd3 N ((s + 1 + t) % NCU) ((s + 1 + t) / NCU) s
      (N ((s + 1 + t) % NCU) ((s + 1 + t) / NCU) s / a00)) (m - 1 - s) M

/-- per-lane start row of `LoopMat`:
`rs = (i <= s % NCU) ? (s / NCU + 1) : (s / NCU)`. -/
def rsOf (NCU s i : ℕ) : ℕ := if i ≤ s % NCU then s / NCU + 1 else s / NCU

/-- replace one lane of the 3-D buffer. -/
def setLane (M : Mat3) (i : ℕ) (L : ℕ → ℕ → Val) : Mat3 :=
  fun i' => if i' = i then L else M i'

/-- stage `LoopMat` of `getrf_nopivot_core`: each lane `i < NCU` runs
`rowUpdate<T, NRCU, NCMAX>(A[i], pivot[i], rs, NRCU-1, s, NCMAX-1)`. -/
def matStage (NCU NRCU NCMAX s : ℕ) (piv : ℕ → ℕ → Val) (M : Mat3) : Mat3 :=
  loop (fun i N =>
    setLane N i (rowUpdate (N i) (piv i) (rsOf NCU s i) (NRCU - 1) s (NCMAX - 1))) NCU M

/-- one iteration of `LoopSweeps` in `getrf_nopivot_core` (elimination step `s`):
pivot extraction, then `a00 = pivot[0][s]`, then the division loop, then the
per-lane trailing submatrix update.  `pg s` is the uninitialized content of
this sweep's local `pivot` array. -/
def coreStep (m n NRCU NCMAX NCU : ℕ) (pg : ℕ → ℕ → ℕ → Val) (s : ℕ) (M : Mat3) : Mat3 :=
  let piv := pivotStage NCU n s M (pg s)
  let a00 := piv 0 s
  matStage NCU NRCU NCMAX s piv (divStage NCU m s a00 M)

/-- embedding of `internal::getrf_nopivot_core<T, NRCU, NCMAX, NCU>(m, n, A, lda)`:
`LoopSweeps` for `s = 0, …, m-2`.  (`lda` is unused by the source core.) -/
def getrf_nopivot_core (m n NRCU NCMAX NCU : ℕ) (pg : ℕ → ℕ → ℕ → Val) (M : Mat3) : Mat3 :=
  loop (coreStep m n NRCU NCMAX NCU pg) (m - 1) M

/-- stage `LoopRead` of `getrf_nopivot`: for `r < m`, `c < n`,
`matA[r % NCU][r / NCU][c] = A[lda * r + c]`, starting from the
uninitialized buffer contents `g`. -/
def loopRead (NCU m n lda : ℕ) (A : ℕ → Val) (g : Mat3) : Mat3 :=
  loop (fun r M =>
    loop (fun c M' => upd3 M' (r % NCU) (r / NCU) c (A (lda * r + c))) n M) m g

/-- stage `LoopWrite` of `getrf_nopivot`: for `r < m`, `c < n`,
`A[r * lda + c] = matA[r % NCU][r / NCU][c]`. -/
def loopWrite (NCU m n lda : ℕ) (M : Mat3) (A : ℕ → Val) : ℕ → Val :=
  loop (fun r B =>
    loop (fun c B' => upd1 B' (r * lda + c) (M (r % NCU) (r / NCU) c)) n B) m A

/-- embedding of `xf::solver::getrf_nopivot<T, NRMAX, NCMAX, NCU>(m, n, A, lda, info)`:
read the external buffer into the lane-partitioned internal buffer, run the
core, write back, and return the (never assigned) `info` unchanged.
`g` and `pg` are the uninitialized initial contents of the internal buffer
`matA` and of the per-sweep `pivot` arrays. -/
def getrf_nopivot (NRMAX NCMAX NCU m n : ℕ) (A : ℕ → Val) (lda : ℕ) (info : ℤ)
    (g : Mat3) (pg : ℕ → ℕ → ℕ → Val) : (ℕ → Val) × ℤ :=
  let NRCU := (NRMAX + NCU - 1) / NCU
  let matA := loopRead NCU m n lda A g
  let matB := getrf_nopivot_core m n NRCU NCMAX NCU pg matA
  (loopWrite NCU m n lda matB A, info)

/-! ### Reference (flat, lane-free) recurrence

The same right-looking elimination recurrence written directly on the
logical `m × n` matrix.  Used as the common reduct for the scheduling /
noninterference claims and as the object of the algebraic L·U analysis. -/

/-- one elimination step of the flat recurrence: rows `i ∈ (s, m)` get
`F[i][s] / F[s][s]` in column `s` and the rank-1 update in columns
`(s, n)`; everything else is unchanged. -/
def gstep (m n s : ℕ) (F : ℕ → ℕ → Val) : ℕ → ℕ → Val :=
  fun i j =>
    if s < i ∧ i < m ∧ j = s then F i s / F s s
    else if s < i ∧ i < m ∧ s < j ∧ j < n then F i j - F i s / F s s * F s j
    else F i j

/-- the flat recurrence after the first `s` elimination steps. -/
def gaussUpto (m n : ℕ) (F : ℕ → ℕ → Val) (s : ℕ) : ℕ → ℕ → Val :=
  loop (gstep m n) s F

/-- the complete flat recurrence: all `m - 1` elimination steps. -/
def gauss (m n : ℕ) (F : ℕ → ℕ → Val) : ℕ → ℕ → Val :=
  gaussUpto m n F (m - 1)

/-- logical view of the lane-partitioned buffer: logical row `r` lives at
lane `r % NCU`, local row `r / NCU`. -/
def view (NCU : ℕ) (M : Mat3) : ℕ → ℕ → Val :=
  fun r c => M (r % NCU) (r / NCU) c

/-- the external linear buffer seen as a logical matrix with leading
dimension `lda`. -/
def extMat (lda : ℕ) (A : ℕ → Val) : ℕ → ℕ → Val :=
  fun r c => A (lda * r + c)

/-- writeback of a flat logical matrix `V` into the external buffer
(same loop structure as `loopWrite`). -/
def refWrite (m n lda : ℕ) (V : ℕ → ℕ → Val) (A : ℕ → Val) : ℕ → Val :=
  loop (fun r B =>
    loop (fun c B' => upd1 B' (r * lda + c) (V r c)) n B) m A

/-! ### Derived objects for the stated properties -/

/-- the unit lower-triangular factor read off an output buffer: strict lower
part of the buffer, implicit unit diagonal, zero above. -/
def lfactor (m lda : ℕ) (out : ℕ → Val) : Matrix (Fin m) (Fin m) Val :=
  Matrix.of fun i k =>
    if (k : ℕ) = (i : ℕ) then 1 else if (k : ℕ) < (i : ℕ) then out (lda * i + k) else 0

/-- the upper-triangular factor read off an output buffer: upper part of the
buffer including the diagonal, zero below. -/
def ufactor (m n lda : ℕ) (out : ℕ → Val) : Matrix (Fin m) (Fin n) Val :=
  Matrix.of fun k j => if (k : ℕ) ≤ (j : ℕ) then out (lda * k + j) else 0

/-- leading principal `k × k` minor of the external matrix. -/
def leadingMinor (lda k : ℕ) (A : ℕ → Val) : Val :=
  Matrix.det (Matrix.of fun i j : Fin k => A (lda * (i : ℕ) + (j : ℕ)))

/-- partial-factorization invariant of the flat recurrence after `s` steps:
every logical entry of the original matrix `A` is reproduced from the
current buffer `F` by the partial `L`/`U` products accumulated so far. -/
def luInv (A F : ℕ → ℕ → Val) (m n s : ℕ) : Prop :=
  ∀ i j, i < m → j < n →
    A i j = (∑ k ∈ Finset.range (min (min i j) s), F i k * F k j) +
      (if j < i ∧ j < s then F i j * F j j else F i j)

/-- concrete scenario matrix `A = [[4,3,2],[2,1,1],[1,1,1]]`, row-major, `lda = 3`. -/
def exA3 : ℕ → Val := fun p =>
  if p = 0 then 4 else if p = 1 then 3 else if p = 2 then 2
  else if p = 3 then 2 else if p = 4 then 1 else if p = 5 then 1
  else if p = 6 then 1 else if p = 7 then 1 else if p = 8 then 1 else 0

/-- companion scenario matrix `A = [[4,3],[6,3]]`, row-major, `lda = 2`. -/
def exB2 : ℕ → Val := fun p =>
  if p = 0 then 4 else if p = 1 then 3 else if p = 2 then 6 else if p = 3 then 3 else 0

/-- a concrete garbage filling for the uninitialized internal buffer. -/
def gbg3 : Mat3 := fun _ _ _ => 37

/-- a concrete garbage filling for the uninitialized pivot arrays. -/
def pgbg3 : ℕ → ℕ → ℕ → Val := fun _ _ _ => 59

/-- a second, different concrete garbage filling for the internal buffer. -/
def gbg4 : Mat3 := fun _ _ _ => -11

/-- a second, different concrete garbage filling for the pivot arrays. -/
def pgbg4 : ℕ → ℕ → ℕ → Val := fun _ _ _ => 101

/-- a concrete lane-replicated pivot array (constant), for witnesses. -/
def pivc : ℕ → ℕ → Val := fun _ _ => 5

/-- the concrete flat pivot row corresponding to `pivc`. -/
def pivP : ℕ → Val := fun _ => 5

/-! ### Arithmetic helpers for the row-cyclic distribution -/

theorem mul_add_div_eq {b n : ℕ} (a : ℕ) (hb : b < n) : (a * n + b) / n = a := by
  rw [add_comm, Nat.add_mul_div_right _ _ (Nat.pos_of_ne_zero (by omega)), Nat.div_eq_of_lt hb,
    Nat.zero_add]

theorem mul_add_mod_eq (a : ℕ) {b n : ℕ} (hb : b < n) : (a * n + b) % n = b := by
  rw [add_comm, Nat.add_mul_mod_self_right, Nat.mod_eq_of_lt hb]

theorem lane_unique {NCU i lr j : ℕ} (h : i < NCU) (hj : lr * NCU + i = j) :
    j % NCU = i ∧ j / NCU = lr := by
  subst hj
  exact ⟨mul_add_mod_eq lr h, mul_add_div_eq lr h⟩

theorem lane_recomp (NCU r : ℕ) : r / NCU * NCU + r % NCU = r := by
  rw [mul_comm]
  exact Nat.div_add_mod r NCU

theorem enum_unique {n a b a' b' : ℕ} (hb : b < n) (hb' : b' < n)
    (h : a * n + b = a' * n + b') : a = a' ∧ b = b' := by
  have h1 : (a * n + b) / n = a := mul_add_div_eq a hb
  have h2 : (a' * n + b') / n = a' := mul_add_div_eq a' hb'
  have h3 : (a * n + b) % n = b := mul_add_mod_eq a hb
  have h4 : (a' * n + b') % n = b' := mul_add_mod_eq a' hb'
  constructor
  · rw [← h1, ← h2, h]
  · rw [← h3, ← h4, h]

/-! ### Pointwise characterization of the loops -/

theorem pivotInner_eq (k0 : ℕ) (v : Val) (piv : ℕ → ℕ → Val) (u r k : ℕ) :
    loop (fun r' piv' => upd2 piv' r' k0 v) u piv r k
    = if r < u ∧ k = k0 then v else piv r k := by
  induction u with
  | zero => simp [loop]
  | succ t ih =>
    simp only [loop, upd2, ih]
    by_cases h1 : r = t ∧ k = k0
    · simp [h1]
    · by_cases h2 : r < t ∧ k = k0
      · simp only [if_pos h2, if_neg h1]
        rw [if_pos ⟨by omega, h2.2⟩]
      · simp only [if_neg h1, if_neg h2]
        rw [if_neg (by omega)]

theorem pivotStage_eq (NCU n s : ℕ) (M : Mat3) (pg0 : ℕ → ℕ → Val) (r k : ℕ) :
    pivotStage NCU n s M pg0 r k
    = if s ≤ k ∧ k < n ∧ r < NCU then M (s % NCU) (s / NCU) k else pg0 r k := by
  have aux : ∀ t, loop (fun t' piv =>
      loop (fun r' piv' => upd2 piv' r' (s + t') (M (s % NCU) (s / NCU) (s + t'))) NCU piv)
      t pg0 r k
      = if s ≤ k ∧ k < s + t ∧ r < NCU then M (s % NCU) (s / NCU) k else pg0 r k := by
    intro t
    induction t with
    | zero =>
      simp only [loop]
      rw [if_neg (by omega)]
    | succ t ih =>
      simp only [loop, pivotInner_eq, ih]
      by_cases h1 : r < NCU ∧ k = s + t
      · rw [if_pos h1, if_pos ⟨by omega, by omega, h1.1⟩, h1.2]
      · by_cases h2 : s ≤ k ∧ k < s + t ∧ r < NCU
        · rw [if_neg h1, if_pos h2, if_pos ⟨h2.1, by omega, h2.2.2⟩]
        · rw [if_neg h1, if_neg h2, if_neg (by omega)]
  rw [pivotStage, aux (n - s)]
  by_cases h : s ≤ k ∧ k < n ∧ r < NCU
  · rw [if_pos ⟨h.1, by omega, h.2.2⟩, if_pos h]
  · rw [if_neg (by omega), if_neg h]

theorem divStage_eq (NCU m s : ℕ) (a00 : Val) (M : Mat3) (hcu : 1 ≤ NCU) (i lr c : ℕ) :
    divStage NCU m s a00 M i lr c
    = if i < NCU ∧ c = s ∧ s + 1 ≤ lr * NCU + i ∧ lr * NCU + i < m
      then M i lr c / a00 else M i lr c := by
  have aux : ∀ t i lr c, loop (fun t' N =>
      upd3 N ((s + 1 + t') % NCU) ((s + 1 + t') / NCU) s
        (N ((s + 1 + t') % NCU) ((s + 1 + t') / NCU) s / a00)) t M i lr c
      = if i < NCU ∧ c = s ∧ s + 1 ≤ lr * NCU + i ∧ lr * NCU + i < s + 1 + t
        then M i lr c / a00 else M i lr c := by
    intro t
    induction t with
    | zero =>
      intro i lr c
      simp only [loop]
      rw [if_neg (by omega)]
    | succ t ih =>
      intro i lr c
      have hj : (s + 1 + t) / NCU * NCU + (s + 1 + t) % NCU = s + 1 + t :=
        lane_recomp NCU (s + 1 + t)
      have hjm : (s + 1 + t) % NCU < NCU := Nat.mod_lt _ (by omega)
      simp only [loop, upd3]
      by_cases h1 : i = (s + 1 + t) % NCU ∧ lr = (s + 1 + t) / NCU ∧ c = s
      · obtain ⟨e1, e2, e3⟩ := h1
        subst e1
        subst e2
        subst e3
        rw [if_pos ⟨rfl, rfl, rfl⟩, ih, if_neg (by omega), if_pos ⟨hjm, rfl, by omega, by omega⟩]
      · rw [if_neg h1, ih]
        by_cases h2 : i < NCU ∧ c = s ∧ s + 1 ≤ lr * NCU + i ∧ lr * NCU + i < s + 1 + t
        · rw [if_pos h2, if_pos ⟨h2.1, h2.2.1, h2.2.2.1, by omega⟩]
        · rw [if_neg h2, if_neg ?_]
          intro h3
          obtain ⟨g1, g2, g3, g4⟩ := h3
          have h5 : lr * NCU + i = s + 1 + t := by
            rcases Nat.lt_or_ge (lr * NCU + i) (s + 1 + t) with h6 | h6
            · exact absurd ⟨g1, g2, g3, h6⟩ h2
            · omega
          obtain ⟨e1, e2⟩ := lane_unique g1 h5
          exact h1 ⟨e1.symm, e2.symm, g2⟩
  rw [divStage, aux (m - 1 - s)]
  by_cases h : i < NCU ∧ c = s ∧ s + 1 ≤ lr * NCU + i ∧ lr * NCU + i < m
  · rw [if_pos ⟨h.1, h.2.1, h.2.2.1, by omega⟩, if_pos h]
  · rw [if_neg (by omega), if_neg h]

theorem rowUpdate_eq (A : ℕ → ℕ → Val) (pivot : ℕ → Val) (rs re cs ce : ℕ) (r c : ℕ) :
    rowUpdate A pivot rs re cs ce r c
    = if rs ≤ r ∧ r ≤ re ∧ cs + 1 ≤ c ∧ c ≤ ce
      then A r c - A r cs * pivot c else A r c := by
  have aux : ∀ k, k ≤ (re + 1 - rs) * (ce - cs) → ∀ r c,
      loop (fun i M =>
        upd2 M (i / (ce - cs) + rs) (i % (ce - cs) + cs + 1)
          (M (i / (ce - cs) + rs) (i % (ce - cs) + cs + 1)
            - M (i / (ce - cs) + rs) cs * pivot (i % (ce - cs) + cs + 1))) k A r c
      = if rs ≤ r ∧ r ≤ re ∧ cs + 1 ≤ c ∧ c ≤ ce
          ∧ (r - rs) * (ce - cs) + (c - (cs + 1)) < k
        then A r c - A r cs * pivot c else A r c := by
    intro k
    induction k with
    | zero =>
      intro _ r c
      simp only [loop]
      rw [if_neg (by omega)]
    | succ k ih =>
      intro hk r c
      have hp : 0 < (re + 1 - rs) * (ce - cs) := by omega
      have hnc : 0 < ce - cs := by
        rcases Nat.eq_zero_or_pos (ce - cs) with h0 | h0
        · rw [h0, Nat.mul_zero] at hp
          omega
        · exact h0
      have hnr : 0 < re + 1 - rs := by
        rcases Nat.eq_zero_or_pos (re + 1 - rs) with h0 | h0
        · rw [h0, Nat.zero_mul] at hp
          omega
        · exact h0
      obtain ⟨d, e, hdd, hee⟩ : ∃ d e, k / (ce - cs) = d ∧ k % (ce - cs) = e := ⟨_, _, rfl, rfl⟩
      have hd : d < re + 1 - rs := by
        have h0 := (Nat.div_lt_iff_lt_mul hnc).mpr (show k < (re + 1 - rs) * (ce - cs) by omega)
        rwa [hdd] at h0
      have he : e < ce - cs := by
        have h0 := Nat.mod_lt k hnc
        rwa [hee] at h0
      have hdm : d * (ce - cs) + e = k := by
        have h0 := lane_recomp (ce - cs) k
        rwa [hdd, hee] at h0
      simp only [loop]
      rw [hdd, hee]
      by_cases hrc : r = d + rs ∧ c = e + cs + 1
      · obtain ⟨e1, e2⟩ := hrc
        subst e1
        subst e2
        have hia : (d + rs - rs) * (ce - cs) + (e + cs + 1 - (cs + 1)) = k := by
          have e3 : d + rs - rs = d := by omega
          have e4 : e + cs + 1 - (cs + 1) = e := by omega
          rw [e3, e4, hdm]
        rw [upd2, if_pos ⟨rfl, rfl⟩, ih (by omega), ih (by omega)]
        rw [if_neg (by omega), if_neg (by omega), if_pos ⟨by omega, by omega, by omega, by omega,
          by omega⟩]
      · rw [upd2, if_neg hrc, ih (by omega)]
        by_cases h2 : rs ≤ r ∧ r ≤ re ∧ cs + 1 ≤ c ∧ c ≤ ce
          ∧ (r - rs) * (ce - cs) + (c - (cs + 1)) < k
        · rw [if_pos h2, if_pos ⟨h2.1, h2.2.1, h2.2.2.1, h2.2.2.2.1, by omega⟩]
        · rw [if_neg h2, if_neg ?_]
          intro h3
          obtain ⟨g1, g2, g3, g4, g5⟩ := h3
          have h5 : (r - rs) * (ce - cs) + (c - (cs + 1)) = k := by
            rcases Nat.lt_or_ge ((r - rs) * (ce - cs) + (c - (cs + 1))) k with h6 | h6
            · exact absurd ⟨g1, g2, g3, g4, h6⟩ h2
            · omega
          have h6eq : (r - rs) * (ce - cs) + (c - (cs + 1))
              = d * (ce - cs) + e := by omega
          obtain ⟨e1, e2⟩ := enum_unique (by omega : c - (cs + 1) < ce - cs) he h6eq
          exact hrc ⟨by omega, by omega⟩
  rw [rowUpdate]
  simp only []
  rw [aux ((re + 1 - rs) * (ce - cs)) le_rfl]
  by_cases h : rs ≤ r ∧ r ≤ re ∧ cs + 1 ≤ c ∧ c ≤ ce
  · have h1 : (r - rs) * (ce - cs) ≤ (re - rs) * (ce - cs) :=
      Nat.mul_le_mul_right _ (by omega)
    have h2 : (re - rs) * (ce - cs) + (ce - cs) = (re + 1 - rs) * (ce - cs) := by
      have h3 : re + 1 - rs = (re - rs) + 1 := by omega
      rw [h3, Nat.succ_mul]
    rw [if_pos ⟨h.1, h.2.1, h.2.2.1, h.2.2.2, by omega⟩, if_pos h]
  · rw [if_neg (by omega), if_neg h]

theorem matStage_eq (NCU NRCU NCMAX s : ℕ) (piv : ℕ → ℕ → Val) (M : Mat3) (i lr c : ℕ) :
    matStage NCU NRCU NCMAX s piv M i lr c
    = if i < NCU
      then rowUpdate (M i) (piv i) (rsOf NCU s i) (NRCU - 1) s (NCMAX - 1) lr c
      else M i lr c := by
  have aux : ∀ t i lr c, loop (fun i' N =>
      setLane N i' (rowUpdate (N i') (piv i') (rsOf NCU s i') (NRCU - 1) s (NCMAX - 1))) t M i lr c
      = if i < t
        then rowUpdate (M i) (piv i) (rsOf NCU s i) (NRCU - 1) s (NCMAX - 1) lr c
        else M i lr c := by
    intro t
    induction t with
    | zero =>
      intro i lr c
      simp only [loop]
      rw [if_neg (by omega)]
    | succ t ih =>
      intro i lr c
      have hNt : (loop (fun i' N =>
          setLane N i' (rowUpdate (N i') (piv i') (rsOf NCU s i') (NRCU - 1) s (NCMAX - 1)))
          t M) t = M t := by
        funext lr' c'
        rw [ih]
        rw [if_neg (by omega)]
      simp only [loop, setLane]
      by_cases h1 : i = t
      · subst h1
        rw [if_pos rfl, hNt, if_pos (by omega)]
      · rw [if_neg h1, ih]
        by_cases h2 : i < t
        · rw [if_pos h2, if_pos (by omega)]
        · rw [if_neg h2, if_neg (by omega)]
  rw [matStage, aux NCU]

theorem loopRead_eq (NCU m n lda : ℕ) (A : ℕ → Val) (g : Mat3) (hcu : 1 ≤ NCU) (i lr c : ℕ) :
    loopRead NCU m n lda A g i lr c
    = if i < NCU ∧ lr * NCU + i < m ∧ c < n
      then A (lda * (lr * NCU + i) + c) else g i lr c := by
  have inner : ∀ r u B i lr c, loop (fun c' B' =>
      upd3 B' (r % NCU) (r / NCU) c' (A (lda * r + c'))) u B i lr c
      = if i = r % NCU ∧ lr = r / NCU ∧ c < u then A (lda * r + c) else B i lr c := by
    intro r u
    induction u with
    | zero =>
      intro B i lr c
      simp only [loop]
      rw [if_neg (by omega)]
    | succ u ih =>
      intro B i lr c
      simp only [loop, upd3]
      by_cases h1 : i = r % NCU ∧ lr = r / NCU ∧ c = u
      · rw [if_pos h1, if_pos ⟨h1.1, h1.2.1, by omega⟩, h1.2.2]
      · rw [if_neg h1, ih]
        by_cases h2 : i = r % NCU ∧ lr = r / NCU ∧ c < u
        · rw [if_pos h2, if_pos ⟨h2.1, h2.2.1, by omega⟩]
        · rw [if_neg h2, if_neg (by omega)]
  have aux : ∀ t i lr c, loop (fun r M =>
      loop (fun c' M' => upd3 M' (r % NCU) (r / NCU) c' (A (lda * r + c'))) n M) t g i lr c
      = if i < NCU ∧ lr * NCU + i < t ∧ c < n
        then A (lda * (lr * NCU + i) + c) else g i lr c := by
    intro t
    induction t with
    | zero =>
      intro i lr c
      simp only [loop]
      rw [if_neg (by omega)]
    | succ t ih =>
      intro i lr c
      have ht : t / NCU * NCU + t % NCU = t := lane_recomp NCU t
      have htm : t % NCU < NCU := Nat.mod_lt _ (by omega)
      simp only [loop]
      rw [inner]
      by_cases h1 : i = t % NCU ∧ lr = t / NCU ∧ c < n
      · obtain ⟨e1, e2, e3⟩ := h1
        subst e1
        subst e2
        rw [if_pos ⟨rfl, rfl, e3⟩, if_pos ⟨htm, by omega, e3⟩]
        rw [ht]
      · rw [if_neg h1, ih]
        by_cases h2 : i < NCU ∧ lr * NCU + i < t ∧ c < n
        · rw [if_pos h2, if_pos ⟨h2.1, by omega, h2.2.2⟩]
        · rw [if_neg h2, if_neg ?_]
          intro h3
          obtain ⟨g1, g2, g3⟩ := h3
          have h5 : lr * NCU + i = t := by
            rcases Nat.lt_or_ge (lr * NCU + i) t with h6 | h6
            · exact absurd ⟨g1, h6, g3⟩ h2
            · omega
          obtain ⟨e1, e2⟩ := lane_unique g1 h5
          exact h1 ⟨e1.symm, e2.symm, g3⟩
  rw [loopRead, aux m]

theorem loopWrite_eq_refWrite (NCU m n lda : ℕ) (M : Mat3) (A : ℕ → Val) :
    loopWrite NCU m n lda M A = refWrite m n lda (view NCU M) A := rfl

theorem refWrite_congr {m n lda : ℕ} (V V' : ℕ → ℕ → Val) (A : ℕ → Val)
    (h : ∀ r c, r < m → c < n → V r c = V' r c) :
    refWrite m n lda V A = refWrite m n lda V' A := by
  have inner : ∀ r, r < m → ∀ u, u ≤ n → ∀ B B', B = B' →
      loop (fun c B0 => upd1 B0 (r * lda + c) (V r c)) u B
      = loop (fun c B0 => upd1 B0 (r * lda + c) (V' r c)) u B' := by
    intro r hr u
    induction u with
    | zero =>
      intro _ B B' hB
      simpa [loop] using hB
    | succ u ih =>
      intro hu B B' hB
      simp only [loop]
      rw [ih (by omega) B B' hB, h r u hr (by omega)]
  have aux : ∀ t, t ≤ m → ∀ B B', B = B' →
      loop (fun r B0 => loop (fun c B1 => upd1 B1 (r * lda + c) (V r c)) n B0) t B
      = loop (fun r B0 => loop (fun c B1 => upd1 B1 (r * lda + c) (V' r c)) n B0) t B' := by
    intro t
    induction t with
    | zero =>
      intro _ B B' hB
      simpa [loop] using hB
    | succ t ih =>
      intro ht B B' hB
      simp only [loop]
      exact inner t (by omega) n le_rfl _ _ (ih (by omega) B B' hB)
  exact aux m le_rfl A A rfl

theorem refWrite_frame {m n lda p : ℕ} (V : ℕ → ℕ → Val) (A : ℕ → Val)
    (h : ∀ r c, r < m → c < n → p ≠ r * lda + c) :
    refWrite m n lda V A p = A p := by
  have inner : ∀ r, r < m → ∀ u, u ≤ n → ∀ B,
      loop (fun c B0 => upd1 B0 (r * lda + c) (V r c)) u B p = B p := by
    intro r hr u
    induction u with
    | zero =>
      intro _ B
      simp [loop]
    | succ u ih =>
      intro hu B
      simp only [loop, upd1]
      rw [if_neg (h r u hr (by omega)), ih (by omega)]
  have aux : ∀ t, t ≤ m → ∀ B,
      loop (fun r B0 => loop (fun c B1 => upd1 B1 (r * lda + c) (V r c)) n B0) t B p = B p := by
    intro t
    induction t with
    | zero =>
      intro _ B
      simp [loop]
    | succ t ih =>
      intro ht B
      simp only [loop]
      rw [inner t (by omega) n le_rfl, ih (by omega)]
  exact aux m le_rfl A

theorem refWrite_read {m n lda r c : ℕ} (V : ℕ → ℕ → Val) (A : ℕ → Val)
    (hlda : n ≤ lda) (hr : r < m) (hc : c < n) :
    refWrite m n lda V A (r * lda + c) = V r c := by
  have inner_hit : ∀ u B, c < u →
      loop (fun c' B0 => upd1 B0 (r * lda + c') (V r c')) u B (r * lda + c) = V r c := by
    intro u
    induction u with
    | zero =>
      intro B h0
      omega
    | succ u ih =>
      intro B hu
      simp only [loop, upd1]
      by_cases h1 : c = u
      · subst h1
        rw [if_pos rfl]
      · rw [if_neg (by omega), ih B (by omega)]
  have inner_miss : ∀ t u B, r < t →
      loop (fun c' B0 => upd1 B0 (t * lda + c') (V t c')) u B (r * lda + c) = B (r * lda + c) := by
    intro t u B ht
    induction u with
    | zero => simp [loop]
    | succ u ih =>
      have hpos : r * lda + c < t * lda := by
        have h1 : (r + 1) * lda ≤ t * lda := Nat.mul_le_mul_right _ (by omega)
        have h2 : r * lda + lda = (r + 1) * lda := (Nat.succ_mul r lda).symm
        omega
      simp only [loop, upd1]
      rw [if_neg (by omega), ih]
  have aux : ∀ t, r < t →
      loop (fun r' B0 => loop (fun c' B1 => upd1 B1 (r' * lda + c') (V r' c')) n B0) t A
        (r * lda + c) = V r c := by
    intro t
    induction t with
    | zero =>
      intro h0
      omega
    | succ t ih =>
      intro ht
      simp only [loop]
      by_cases h1 : r = t
      · subst h1
        exact inner_hit n _ hc
      · rw [inner_miss t n _ (by omega), ih (by omega)]
  exact aux m hr

/-! ### Bridge: the lane-distributed core computes the flat recurrence -/

theorem rsOf_le_iff (NCU s r : ℕ) (hcu : 1 ≤ NCU) :
    rsOf NCU s (r % NCU) ≤ r / NCU ↔ s < r := by
  have hs0 := lane_recomp NCU s
  have hr0 := lane_recomp NCU r
  have hsm : s % NCU < NCU := Nat.mod_lt _ (by omega)
  have hrm : r % NCU < NCU := Nat.mod_lt _ (by omega)
  obtain ⟨qs, js, hqs, hjs⟩ : ∃ q j, s / NCU = q ∧ s % NCU = j := ⟨_, _, rfl, rfl⟩
  obtain ⟨qr, jr, hqr, hjr⟩ : ∃ q j, r / NCU = q ∧ r % NCU = j := ⟨_, _, rfl, rfl⟩
  rw [hqs, hjs] at hs0
  rw [hjs] at hsm
  rw [hqr, hjr] at hr0
  rw [hjr] at hrm
  rw [rsOf, hqs, hjs, hqr, hjr, ← hs0, ← hr0]
  by_cases hle : jr ≤ js
  · rw [if_pos hle]
    constructor
    · intro h
      have h1 : (qs + 1) * NCU ≤ qr * NCU := Nat.mul_le_mul_right _ h
      have h2 : (qs + 1) * NCU = qs * NCU + NCU := Nat.succ_mul qs NCU
      omega
    · intro h
      by_contra hq
      have h3 : qr * NCU ≤ qs * NCU := Nat.mul_le_mul_right _ (by omega)
      omega
  · rw [if_neg hle]
    constructor
    · intro h
      have h1 : qs * NCU ≤ qr * NCU := Nat.mul_le_mul_right _ h
      omega
    · intro h
      by_contra hq
      have h1 : (qr + 1) * NCU ≤ qs * NCU := Nat.mul_le_mul_right _ (by omega)
      have h2 : (qr + 1) * NCU = qr * NCU + NCU := Nat.succ_mul qr NCU
      omega

theorem coreStep_view (m n NRCU NCMAX NCU : ℕ) (pg : ℕ → ℕ → ℕ → Val) (s : ℕ) (M : Mat3)
    (F : ℕ → ℕ → Val) (hcu : 1 ≤ NCU) (hm : m ≤ NCU * NRCU) (hn : n ≤ NCMAX) (hs : s < m)
    (hF : ∀ r c, r < m → c < n → view NCU M r c = F r c) :
    ∀ r c, r < m → c < n →
      view NCU (coreStep m n NRCU NCMAX NCU pg s M) r c = gstep m n s F r c := by
  intro r c hr hc
  have hrm : r % NCU < NCU := Nat.mod_lt _ (by omega)
  have hrec : r / NCU * NCU + r % NCU = r := lane_recomp NCU r
  have hlr : r / NCU ≤ NRCU - 1 := by
    have hm' : m ≤ NRCU * NCU := by rwa [Nat.mul_comm] at hm
    have h4 : r / NCU < NRCU := (Nat.div_lt_iff_lt_mul (by omega)).mpr (by omega)
    omega
  have ha00 : pivotStage NCU n s M (pg s) 0 s
      = if s < n then F s s else pg s 0 s := by
    rw [pivotStage_eq]
    by_cases h : s < n
    · rw [if_pos (show s ≤ s ∧ s < n ∧ 0 < NCU from ⟨le_rfl, h, by omega⟩), if_pos h]
      exact hF s s hs h
    · rw [if_neg (show ¬(s ≤ s ∧ s < n ∧ 0 < NCU) by omega), if_neg h]
  simp only [coreStep, view]
  rw [matStage_eq, if_pos hrm, rowUpdate_eq, ha00]
  set a00 := if s < n then F s s else pg s 0 s with ha00d
  by_cases hsr : s < r
  · by_cases hsc : s < c
    · rw [if_pos (show rsOf NCU s (r % NCU) ≤ r / NCU ∧ r / NCU ≤ NRCU - 1 ∧ s + 1 ≤ c
        ∧ c ≤ NCMAX - 1 from ⟨(rsOf_le_iff NCU s r hcu).mpr hsr, hlr, by omega, by omega⟩)]
      have hsn : s < n := by omega
      rw [divStage_eq _ _ _ _ _ hcu,
        if_neg (show ¬(r % NCU < NCU ∧ c = s ∧ s + 1 ≤ r / NCU * NCU + r % NCU
          ∧ r / NCU * NCU + r % NCU < m) by omega)]
      rw [divStage_eq _ _ _ _ _ hcu,
        if_pos (show r % NCU < NCU ∧ s = s ∧ s + 1 ≤ r / NCU * NCU + r % NCU
          ∧ r / NCU * NCU + r % NCU < m from ⟨hrm, rfl, by omega, by omega⟩)]
      rw [pivotStage_eq,
        if_pos (show s ≤ c ∧ c < n ∧ r % NCU < NCU from ⟨by omega, hc, hrm⟩)]
      rw [ha00d, if_pos hsn]
      have e1 : M (r % NCU) (r / NCU) c = F r c := hF r c hr hc
      have e2 : M (r % NCU) (r / NCU) s = F r s := hF r s hr hsn
      have e3 : M (s % NCU) (s / NCU) c = F s c := hF s c hs hc
      rw [e1, e2, e3, gstep]
      rw [if_neg (show ¬(s < r ∧ r < m ∧ c = s) by omega),
        if_pos (show s < r ∧ r < m ∧ s < c ∧ c < n from ⟨hsr, hr, hsc, hc⟩)]
    · rw [if_neg (show ¬(rsOf NCU s (r % NCU) ≤ r / NCU ∧ r / NCU ≤ NRCU - 1 ∧ s + 1 ≤ c
          ∧ c ≤ NCMAX - 1) by omega)]
      by_cases hcs : c = s
      · subst hcs
        have hsn : c < n := hc
        rw [divStage_eq _ _ _ _ _ hcu,
          if_pos (show r % NCU < NCU ∧ c = c ∧ c + 1 ≤ r / NCU * NCU + r % NCU
            ∧ r / NCU * NCU + r % NCU < m from ⟨hrm, rfl, by omega, by omega⟩)]
        rw [ha00d, if_pos hsn]
        have e2 : M (r % NCU) (r / NCU) c = F r c := hF r c hr hc
        rw [e2, gstep, if_pos (show c < r ∧ r < m ∧ c = c from ⟨hsr, hr, rfl⟩)]
      · rw [divStage_eq _ _ _ _ _ hcu,
          if_neg (show ¬(r % NCU < NCU ∧ c = s ∧ s + 1 ≤ r / NCU * NCU + r % NCU
            ∧ r / NCU * NCU + r % NCU < m) by omega)]
        have e1 : M (r % NCU) (r / NCU) c = F r c := hF r c hr hc
        rw [e1, gstep, if_neg (show ¬(s < r ∧ r < m ∧ c = s) by omega),
          if_neg (show ¬(s < r ∧ r < m ∧ s < c ∧ c < n) by omega)]
  · have hnotrs : ¬ rsOf NCU s (r % NCU) ≤ r / NCU := by
      rw [rsOf_le_iff NCU s r hcu]
      omega
    rw [if_neg (show ¬(rsOf NCU s (r % NCU) ≤ r / NCU ∧ r / NCU ≤ NRCU - 1 ∧ s + 1 ≤ c
        ∧ c ≤ NCMAX - 1) from fun h => hnotrs h.1)]
    rw [divStage_eq _ _ _ _ _ hcu,
      if_neg (show ¬(r % NCU < NCU ∧ c = s ∧ s + 1 ≤ r / NCU * NCU + r % NCU
        ∧ r / NCU * NCU + r % NCU < m) by omega)]
    have e1 : M (r % NCU) (r / NCU) c = F r c := hF r c hr hc
    rw [e1, gstep, if_neg (show ¬(s < r ∧ r < m ∧ c = s) by omega),
      if_neg (show ¬(s < r ∧ r < m ∧ s < c ∧ c < n) by omega)]

theorem core_view (m n NRCU NCMAX NCU : ℕ) (pg : ℕ → ℕ → ℕ → Val) (M : Mat3)
    (F : ℕ → ℕ → Val) (hcu : 1 ≤ NCU) (hm : m ≤ NCU * NRCU) (hn : n ≤ NCMAX)
    (hF : ∀ r c, r < m → c < n → view NCU M r c = F r c) :
    ∀ r c, r < m → c < n →
      view NCU (getrf_nopivot_core m n NRCU NCMAX NCU pg M) r c = gauss m n F r c := by
  have aux : ∀ t, t ≤ m - 1 → ∀ r c, r < m → c < n →
      view NCU (loop (coreStep m n NRCU NCMAX NCU pg) t M) r c = loop (gstep m n) t F r c := by
    intro t
    induction t with
    | zero =>
      intro _ r c hr hc
      exact hF r c hr hc
    | succ t ih =>
      intro ht r c hr hc
      simp only [loop]
      exact coreStep_view m n NRCU NCMAX NCU pg t _ _ hcu hm hn (by omega)
        (ih (by omega)) r c hr hc
  exact aux (m - 1) le_rfl

theorem getrf_out_eq (NRMAX NCMAX NCU m n lda : ℕ) (A : ℕ → Val) (info : ℤ) (g : Mat3)
    (pg : ℕ → ℕ → ℕ → Val) (hcu : 1 ≤ NCU) (hm : m ≤ NRMAX) (hn : n ≤ NCMAX) :
    (getrf_nopivot NRMAX NCMAX NCU m n A lda info g pg).1
    = refWrite m n lda (gauss m n (extMat lda A)) A := by
  have hcover : m ≤ NCU * ((NRMAX + NCU - 1) / NCU) := by
    obtain ⟨q, w, hq, hw⟩ : ∃ q w, (NRMAX + NCU - 1) / NCU = q ∧ (NRMAX + NCU - 1) % NCU = w :=
      ⟨_, _, rfl, rfl⟩
    have h0 : NCU * q + w = NRMAX + NCU - 1 := by
      have h1 := Nat.div_add_mod (NRMAX + NCU - 1) NCU
      rw [hq, hw] at h1
      exact h1
    have h1 : w < NCU := by
      have h2 := Nat.mod_lt (NRMAX + NCU - 1) (show 0 < NCU by omega)
      rwa [hw] at h2
    rw [hq]
    omega
  simp only [getrf_nopivot]
  rw [loopWrite_eq_refWrite]
  apply refWrite_congr
  intro r c hr hc
  apply core_view m n _ NCMAX NCU pg _ (extMat lda A) hcu hcover hn _ r c hr hc
  intro r' c' hr' hc'
  have hrm : r' % NCU < NCU := Nat.mod_lt _ (by omega)
  have hrec : r' / NCU * NCU + r' % NCU = r' := lane_recomp NCU r'
  show loopRead NCU m n lda A g (r' % NCU) (r' / NCU) c' = extMat lda A r' c'
  rw [loopRead_eq _ _ _ _ _ _ hcu, if_pos ⟨hrm, by omega, hc'⟩, hrec, extMat]

/-! ### Algebra of the flat recurrence: the partial-factorization invariant -/

theorem sum_split_single (N t : ℕ) (f : ℕ → Val) (v : Val) (h : t < N) :
    (∑ k ∈ Finset.range N, if k < t then f k else if k = t then v else 0)
    = (∑ k ∈ Finset.range t, f k) + v := by
  induction N with
  | zero => omega
  | succ N ih =>
    rw [Finset.sum_range_succ]
    by_cases hN : t < N
    · rw [ih hN, if_neg (by omega), if_neg (by omega), add_zero]
    · have ht : t = N := by omega
      subst ht
      rw [if_neg (by omega), if_pos rfl]
      congr 1
      apply Finset.sum_congr rfl
      intro k hk
      rw [Finset.mem_range] at hk
      rw [if_pos hk]

theorem gstep_fix_row {m n s i : ℕ} (F : ℕ → ℕ → Val) (j : ℕ) (h : i ≤ s) :
    gstep m n s F i j = F i j := by
  rw [gstep, if_neg (by omega), if_neg (by omega)]

theorem gstep_fix_col {m n s k : ℕ} (F : ℕ → ℕ → Val) (i : ℕ) (h : k < s) :
    gstep m n s F i k = F i k := by
  rw [gstep, if_neg (by omega), if_neg (by omega)]

theorem gstep_div {m n s i : ℕ} (F : ℕ → ℕ → Val) (h1 : s < i) (h2 : i < m) :
    gstep m n s F i s = F i s / F s s := by
  rw [gstep, if_pos ⟨h1, h2, rfl⟩]

theorem gstep_upd {m n s i j : ℕ} (F : ℕ → ℕ → Val) (h1 : s < i) (h2 : i < m)
    (h3 : s < j) (h4 : j < n) :
    gstep m n s F i j = F i j - F i s / F s s * F s j := by
  rw [gstep, if_neg (by omega), if_pos ⟨h1, h2, h3, h4⟩]

theorem luInv_zero (A : ℕ → ℕ → Val) (m n : ℕ) : luInv A A m n 0 := by
  intro i j hi hj
  simp [Nat.min_zero]

theorem luInv_step (A F : ℕ → ℕ → Val) (m n s : ℕ) (h : luInv A F m n s)
    (hpiv : s < n → F s s ≠ 0) : luInv A (gstep m n s F) m n (s + 1) := by
  intro i j hi hj
  have hbase := h i j hi hj
  by_cases his : i ≤ s
  · -- rows up to the pivot row are frozen and already final in the invariant
    have hmin : min (min i j) (s + 1) = min (min i j) s := by omega
    rw [hmin]
    have hsum : (∑ k ∈ Finset.range (min (min i j) s), gstep m n s F i k * gstep m n s F k j)
        = ∑ k ∈ Finset.range (min (min i j) s), F i k * F k j := by
      apply Finset.sum_congr rfl
      intro k hk
      rw [Finset.mem_range] at hk
      rw [gstep_fix_row F _ his, gstep_fix_row F _ (by omega)]
    rw [hsum]
    by_cases hji : j < i
    · rw [if_pos ⟨hji, by omega⟩, gstep_fix_row F _ his, gstep_fix_row F _ (by omega)]
      rw [if_pos ⟨hji, by omega⟩] at hbase
      exact hbase
    · rw [if_neg (by omega), gstep_fix_row F _ his]
      rw [if_neg (by omega)] at hbase
      exact hbase
  · by_cases hjs : j < s
    · -- columns left of the pivot column are frozen and final
      have hmin : min (min i j) (s + 1) = min (min i j) s := by omega
      rw [hmin]
      have hsum : (∑ k ∈ Finset.range (min (min i j) s), gstep m n s F i k * gstep m n s F k j)
          = ∑ k ∈ Finset.range (min (min i j) s), F i k * F k j := by
        apply Finset.sum_congr rfl
        intro k hk
        rw [Finset.mem_range] at hk
        rw [gstep_fix_col F _ (by omega), gstep_fix_row F _ (by omega)]
      rw [hsum, if_pos ⟨by omega, by omega⟩, gstep_fix_col F _ hjs, gstep_fix_row F _ (by omega)]
      rw [if_pos ⟨by omega, hjs⟩] at hbase
      exact hbase
    · by_cases hjeq : j = s
      · -- the pivot column below the diagonal: division is undone by the rho product
        subst hjeq
        have hmin : min (min i j) (j + 1) = j := by omega
        have hmin' : min (min i j) j = j := by omega
        rw [hmin]
        rw [hmin', if_neg (by omega)] at hbase
        have hsum : (∑ k ∈ Finset.range j, gstep m n j F i k * gstep m n j F k j)
            = ∑ k ∈ Finset.range j, F i k * F k j := by
          apply Finset.sum_congr rfl
          intro k hk
          rw [Finset.mem_range] at hk
          rw [gstep_fix_col F _ hk, gstep_fix_row F _ (by omega)]
        rw [hsum, if_pos ⟨by omega, by omega⟩]
        rw [gstep_div F (by omega) hi, gstep_fix_row F _ le_rfl]
        rw [div_mul_cancel₀ (F i j) (hpiv hj)]
        exact hbase
      · -- the trailing submatrix: the rank-1 update extends the partial product
        have hjs' : s < j := by omega
        have hmin : min (min i j) (s + 1) = s + 1 := by omega
        have hmin' : min (min i j) s = s := by omega
        rw [hmin]
        rw [hmin', if_neg (by omega)] at hbase
        rw [Finset.sum_range_succ]
        have hsum : (∑ k ∈ Finset.range s, gstep m n s F i k * gstep m n s F k j)
            = ∑ k ∈ Finset.range s, F i k * F k j := by
          apply Finset.sum_congr rfl
          intro k hk
          rw [Finset.mem_range] at hk
          rw [gstep_fix_col F _ hk, gstep_fix_row F _ (by omega)]
        rw [hsum, if_neg (by omega)]
        rw [gstep_div F (by omega) hi, gstep_fix_row F _ le_rfl]
        rw [gstep_upd F (by omega) hi hjs' hj, hbase]
        ring

theorem luInv_upto (A : ℕ → ℕ → Val) (m n s : ℕ)
    (hpiv : ∀ u, u < s → u < n → gaussUpto m n A u u u ≠ 0) :
    luInv A (gaussUpto m n A s) m n s := by
  induction s with
  | zero => exact luInv_zero A m n
  | succ s ih =>
    exact luInv_step A (gaussUpto m n A s) m n s
      (ih fun u hu hun => hpiv u (by omega) hun)
      (fun hsn => hpiv s (by omega) hsn)

theorem luSum_eq (F : ℕ → ℕ → Val) (N i j : ℕ) (hij : min i j < N) :
    (∑ k ∈ Finset.range N,
      (if k = i then (1 : Val) else if k < i then F i k else 0)
        * (if k ≤ j then F k j else 0))
    = (∑ k ∈ Finset.range (min i j), F i k * F k j)
      + (if j < i then F i j * F j j else F i j) := by
  have h1 : (∑ k ∈ Finset.range N,
      (if k = i then (1 : Val) else if k < i then F i k else 0)
        * (if k ≤ j then F k j else 0))
      = ∑ k ∈ Finset.range N,
        (if k < min i j then F i k * F k j
          else if k = min i j then (if j < i then F i j * F j j else F i j) else 0) := by
    apply Finset.sum_congr rfl
    intro k hk
    rw [Finset.mem_range] at hk
    by_cases h1 : k < min i j
    · rw [if_pos h1, if_neg (by omega), if_pos (by omega), if_pos (by omega)]
    · by_cases h2 : k = min i j
      · rw [if_neg h1, if_pos h2]
        by_cases h3 : j < i
        · have hkj : k = j := by omega
          subst hkj
          rw [if_neg (by omega), if_pos h3, if_pos le_rfl, if_pos h3]
        · have hki : k = i := by omega
          subst hki
          rw [if_pos rfl, if_pos (by omega), if_neg h3, one_mul]
      · rw [if_neg h1, if_neg h2]
        by_cases h3 : j < i
        · rw [if_neg (show ¬ k ≤ j by omega), mul_zero]
        · rw [if_neg (by omega), if_neg (by omega), zero_mul]
  rw [h1, sum_split_single N (min i j) _ _ hij]

theorem minor_eq_prod (A F : ℕ → ℕ → Val) (m n s : ℕ) (hinv : luInv A F m n s)
    (hsm : s < m) (hsn : s < n) :
    Matrix.det (Matrix.of fun i j : Fin (s + 1) => A i j) = ∏ t : Fin (s + 1), F t t := by
  have hLU : (Matrix.of fun i j : Fin (s + 1) => A i j)
      = (Matrix.of fun i k : Fin (s + 1) =>
          if (k : ℕ) = (i : ℕ) then (1 : Val) else if (k : ℕ) < (i : ℕ) then F i k else 0)
        * (Matrix.of fun k j : Fin (s + 1) =>
            if (k : ℕ) ≤ (j : ℕ) then F k j else 0) := by
    ext i j
    have hi := i.isLt
    have hj := j.isLt
    rw [Matrix.mul_apply]
    simp only [Matrix.of_apply]
    rw [Fin.sum_univ_eq_sum_range (fun k =>
      (if k = (i : ℕ) then (1 : Val) else if k < (i : ℕ) then F i k else 0)
        * (if k ≤ (j : ℕ) then F k j else 0)) (s + 1)]
    rw [luSum_eq F (s + 1) i j (by omega)]
    have hbase := hinv i j (by omega) (by omega)
    have hmin : min (min (i : ℕ) (j : ℕ)) s = min (i : ℕ) (j : ℕ) := by omega
    rw [hmin] at hbase
    by_cases h3 : (j : ℕ) < (i : ℕ)
    · rw [if_pos h3]
      rw [if_pos ⟨h3, by omega⟩] at hbase
      exact hbase
    · rw [if_neg h3]
      rw [if_neg (by omega)] at hbase
      exact hbase
  rw [hLU, Matrix.det_mul]
  have hL : Matrix.det (Matrix.of fun i k : Fin (s + 1) =>
      if (k : ℕ) = (i : ℕ) then (1 : Val) else if (k : ℕ) < (i : ℕ) then F i k else 0) = 1 := by
    rw [Matrix.det_of_lowerTriangular _ ?_]
    · apply Finset.prod_eq_one
      intro t _
      simp [Matrix.of_apply]
    · intro i j hij
      have h1 : i < j := OrderDual.toDual_lt_toDual.mp hij
      have h2 : (i : ℕ) < (j : ℕ) := h1
      simp only [Matrix.of_apply]
      rw [if_neg (by omega), if_neg (by omega)]
  have hU : Matrix.det (Matrix.of fun k j : Fin (s + 1) =>
      if (k : ℕ) ≤ (j : ℕ) then F k j else 0) = ∏ t : Fin (s + 1), F t t := by
    rw [Matrix.det_of_upperTriangular ?_]
    · apply Finset.prod_congr rfl
      intro t _
      simp [Matrix.of_apply]
    · intro i j hij
      have h2 : (j : ℕ) < (i : ℕ) := hij
      simp only [Matrix.of_apply]
      rw [if_neg (by omega)]
  rw [hL, hU, one_mul]

theorem pivots_ne_zero (A : ℕ → ℕ → Val) (m n : ℕ)
    (hminors : ∀ k, 1 ≤ k → k ≤ min m n →
      Matrix.det (Matrix.of fun i j : Fin k => A i j) ≠ 0) :
    ∀ u, u < m → u < n → gaussUpto m n A u u u ≠ 0 := by
  intro u
  induction u using Nat.strong_induction_on with
  | _ u ih =>
    intro hum hun
    have hinv : luInv A (gaussUpto m n A u) m n u :=
      luInv_upto A m n u (fun v hv hvn => ih v hv (by omega) hvn)
    have hdet := minor_eq_prod A (gaussUpto m n A u) m n u hinv hum hun
    have hne := hminors (u + 1) (by omega) (by omega)
    rw [hdet] at hne
    intro h0
    apply hne
    apply Finset.prod_eq_zero (Finset.mem_univ (⟨u, by omega⟩ : Fin (u + 1)))
    exact h0

theorem gauss_recon (A : ℕ → ℕ → Val) (m n : ℕ)
    (hminors : ∀ k, 1 ≤ k → k ≤ min m n →
      Matrix.det (Matrix.of fun i j : Fin k => A i j) ≠ 0)
    (i j : ℕ) (hi : i < m) (hj : j < n) :
    (∑ k ∈ Finset.range m,
      (if k = i then (1 : Val) else if k < i then gauss m n A i k else 0)
        * (if k ≤ j then gauss m n A k j else 0))
    = A i j := by
  have hinv : luInv A (gaussUpto m n A (m - 1)) m n (m - 1) :=
    luInv_upto A m n (m - 1) (fun u hu hun => pivots_ne_zero A m n hminors u (by omega) hun)
  have hbase := hinv i j hi hj
  have hmin : min (min i j) (m - 1) = min i j := by omega
  rw [hmin] at hbase
  rw [luSum_eq (gauss m n A) m i j (by omega)]
  by_cases h3 : j < i
  · rw [if_pos h3]
    rw [if_pos ⟨h3, by omega⟩] at hbase
    exact hbase.symm
  · rw [if_neg h3]
    rw [if_neg (by omega)] at hbase
    exact hbase.symm

/-! ### The claims -/

/-- C5: for every input, `getrf_nopivot` never assigns the `info` output
parameter: the returned `info` is exactly the caller-supplied initial value,
so a singular pivot is never reported. -/
theorem C5_info_never_set (NRMAX NCMAX NCU m n lda : ℕ) (A : ℕ → Val) (info : ℤ)
    (g : Mat3) (pg : ℕ → ℕ → ℕ → Val) :
    (getrf_nopivot NRMAX NCMAX NCU m n A lda info g pg).2 = info := rfl

/-- C6: for a fixed input matrix `A` and fixed `m`, `n`, `lda`, the output
buffer of `getrf_nopivot` is exactly the same for every choice of lane count
`NCU ≥ 1` (and of the uninitialized-memory contents): the lane count changes
only the scheduling of the work, not the computed recurrence. -/
theorem C6_lane_count_invariance (NRMAX NCMAX NCU1 NCU2 m n lda : ℕ) (A : ℕ → Val)
    (info1 info2 : ℤ) (g1 g2 : Mat3) (pg1 pg2 : ℕ → ℕ → ℕ → Val)
    (h1 : 1 ≤ NCU1) (h2 : 1 ≤ NCU2) (hm : m ≤ NRMAX) (hn : n ≤ NCMAX) :
    (getrf_nopivot NRMAX NCMAX NCU1 m n A lda info1 g1 pg1).1
    = (getrf_nopivot NRMAX NCMAX NCU2 m n A lda info2 g2 pg2).1 := by
  rw [getrf_out_eq NRMAX NCMAX NCU1 m n lda A info1 g1 pg1 h1 hm hn,
    getrf_out_eq NRMAX NCMAX NCU2 m n lda A info2 g2 pg2 h2 hm hn]

/-- C6 witness: lane counts 1 and 2 (with different garbage and `info`)
give identical output buffers on the concrete 3×3 scenario. -/
theorem C6_lane_count_invariance_witness :
    (1 : ℕ) ≤ 1 ∧ (1 : ℕ) ≤ 2 ∧ (3 : ℕ) ≤ 4 ∧
    (getrf_nopivot 4 3 1 3 3 exA3 3 0 gbg3 pgbg3).1
    = (getrf_nopivot 4 3 2 3 3 exA3 3 7 gbg4 pgbg4).1 :=
  ⟨by decide, by decide, by decide,
    C6_lane_count_invariance 4 3 1 2 3 3 3 exA3 0 7 gbg3 gbg4 pgbg3 pgbg4
      (by decide) (by decide) (by decide) (by decide)⟩

/-- C9: padding noninterference: for `m ≤ NRMAX`, `n ≤ NCMAX`, the output
buffer does not depend on the uninitialized contents of the internal buffer
outside the logical region, nor on the uninitialized pivot-array cells that
the update loop reads at columns `≥ n`: two runs differing only in that
garbage produce identical output. -/
theorem C9_padding_noninterference (NRMAX NCMAX NCU m n lda : ℕ) (A : ℕ → Val) (info : ℤ)
    (g g' : Mat3) (pg pg' : ℕ → ℕ → ℕ → Val)
    (hcu : 1 ≤ NCU) (hm : m ≤ NRMAX) (hn : n ≤ NCMAX) :
    (getrf_nopivot NRMAX NCMAX NCU m n A lda info g pg).1
    = (getrf_nopivot NRMAX NCMAX NCU m n A lda info g' pg').1 := by
  rw [getrf_out_eq NRMAX NCMAX NCU m n lda A info g pg hcu hm hn,
    getrf_out_eq NRMAX NCMAX NCU m n lda A info g' pg' hcu hm hn]

/-- C9 witness: two different garbage fillings give identical output
buffers on the concrete 3×3 scenario with 2 lanes. -/
theorem C9_padding_noninterference_witness :
    (1 : ℕ) ≤ 2 ∧ (3 : ℕ) ≤ 4 ∧ (3 : ℕ) ≤ 3 ∧
    (getrf_nopivot 4 3 2 3 3 exA3 3 0 gbg3 pgbg3).1
    = (getrf_nopivot 4 3 2 3 3 exA3 3 0 gbg4 pgbg4).1 :=
  ⟨by decide, by decide, by decide,
    C9_padding_noninterference 4 3 2 3 3 3 exA3 0 gbg3 gbg4 pgbg3 pgbg4
      (by decide) (by decide) (by decide)⟩

/-- C7: when `m = 1`, no elimination step runs and the output equals the
input on the single logical row: for every `c < n`, the returned
`A[0*lda + c]` is the original `A[0*lda + c]`. -/
theorem C7_m_one_identity (NRMAX NCMAX NCU n lda : ℕ) (A : ℕ → Val) (info : ℤ)
    (g : Mat3) (pg : ℕ → ℕ → ℕ → Val)
    (hcu : 1 ≤ NCU) (hlda : n ≤ lda) (c : ℕ) (hc : c < n) :
    (getrf_nopivot NRMAX NCMAX NCU 1 n A lda info g pg).1 (0 * lda + c)
    = A (0 * lda + c) := by
  have h0 : (getrf_nopivot NRMAX NCMAX NCU 1 n A lda info g pg).1
      = refWrite 1 n lda (view NCU (loopRead NCU 1 n lda A g)) A := rfl
  rw [h0, refWrite_read _ _ hlda (by omega) hc]
  show loopRead NCU 1 n lda A g (0 % NCU) (0 / NCU) c = A (0 * lda + c)
  rw [Nat.zero_mod, Nat.zero_div, loopRead_eq _ _ _ _ _ _ hcu]
  rw [if_pos ⟨by omega, by omega, hc⟩]
  congr 1
  omega

/-- C7 witness: at `m = 1`, `n = 2`, the output equals the input at
column 1 of the single row. -/
theorem C7_m_one_identity_witness :
    (1 : ℕ) ≤ 1 ∧ (2 : ℕ) ≤ 2 ∧ (1 : ℕ) < 2 ∧
    (getrf_nopivot 2 2 1 1 2 exB2 2 0 gbg3 pgbg3).1 (0 * 2 + 1) = exB2 (0 * 2 + 1) :=
  ⟨by decide, by decide, by decide,
    C7_m_one_identity 2 2 1 2 2 exB2 0 gbg3 pgbg3 (by decide) (by decide) 1 (by decide)⟩

/-- C10: external-buffer frame: `getrf_nopivot` writes only the offsets
`r*lda + c` with `r < m`, `c < n`; every other element of the external
buffer is returned unchanged. -/
theorem C10_external_frame (NRMAX NCMAX NCU m n lda : ℕ) (A : ℕ → Val) (info : ℤ)
    (g : Mat3) (pg : ℕ → ℕ → ℕ → Val) (p : ℕ)
    (hp : ∀ r c, r < m → c < n → p ≠ r * lda + c) :
    (getrf_nopivot NRMAX NCMAX NCU m n A lda info g pg).1 p = A p := by
  have h0 : (getrf_nopivot NRMAX NCMAX NCU m n A lda info g pg).1
      = refWrite m n lda
          (view NCU (getrf_nopivot_core m n ((NRMAX + NCU - 1) / NCU) NCMAX NCU pg
            (loopRead NCU m n lda A g))) A := rfl
  rw [h0]
  exact refWrite_frame _ _ hp

/-- C10 witness: with `m = n = 1`, `lda = 2`, the padding offset 1 is
unchanged by the call. -/
theorem C10_external_frame_witness :
    (1 : ℕ) ≠ 0 * 2 + 0 ∧
    (getrf_nopivot 2 2 1 1 1 exB2 2 0 gbg3 pgbg3).1 1 = exB2 1 :=
  ⟨by decide,
    C10_external_frame 2 2 1 1 1 2 exB2 0 gbg3 pgbg3 1
      (fun r c hr hc => by omega)⟩

/-- C8: frozen-region invariant: elimination step `s` (pivot extraction,
division and rank-1 update together) leaves every logical entry `A[j][c]`
with `j ≤ s` or `c < s` unchanged; hence each pivot row and multiplier
column, once produced at step `s`, is never modified by any later step. -/
theorem C8_frozen_region (m n NRCU NCMAX NCU : ℕ) (pg : ℕ → ℕ → ℕ → Val) (s : ℕ)
    (M : Mat3) (hcu : 1 ≤ NCU) (r c : ℕ) (hr : r < m) (hc : c < n)
    (hfrozen : r ≤ s ∨ c < s) :
    view NCU (coreStep m n NRCU NCMAX NCU pg s M) r c = view NCU M r c := by
  have hrm : r % NCU < NCU := Nat.mod_lt _ (by omega)
  have hrec : r / NCU * NCU + r % NCU = r := lane_recomp NCU r
  simp only [coreStep, view]
  rw [matStage_eq, if_pos hrm, rowUpdate_eq]
  rcases hfrozen with hrs | hcs
  · have hnotrs : ¬ rsOf NCU s (r % NCU) ≤ r / NCU := by
      rw [rsOf_le_iff NCU s r hcu]
      omega
    rw [if_neg (show ¬(rsOf NCU s (r % NCU) ≤ r / NCU ∧ r / NCU ≤ NRCU - 1 ∧ s + 1 ≤ c
        ∧ c ≤ NCMAX - 1) from fun h => hnotrs h.1)]
    rw [divStage_eq _ _ _ _ _ hcu,
      if_neg (show ¬(r % NCU < NCU ∧ c = s ∧ s + 1 ≤ r / NCU * NCU + r % NCU
        ∧ r / NCU * NCU + r % NCU < m) by omega)]
  · rw [if_neg (show ¬(rsOf NCU s (r % NCU) ≤ r / NCU ∧ r / NCU ≤ NRCU - 1 ∧ s + 1 ≤ c
        ∧ c ≤ NCMAX - 1) by omega)]
    rw [divStage_eq _ _ _ _ _ hcu,
      if_neg (show ¬(r % NCU < NCU ∧ c = s ∧ s + 1 ≤ r / NCU * NCU + r % NCU
        ∧ r / NCU * NCU + r % NCU < m) by omega)]

/-- C8 witness: at step 1 of a 2×2 system, the logical entry (0,0)
(row 0 ≤ s) is unchanged by the whole step. -/
theorem C8_frozen_region_witness :
    (1 : ℕ) ≤ 1 ∧ (0 : ℕ) < 2 ∧ ((0 : ℕ) ≤ 1 ∨ (0 : ℕ) < 1) ∧
    view 1 (coreStep 2 2 2 2 1 pgbg3 1 gbg3) 0 0 = view 1 gbg3 0 0 :=
  ⟨by decide, by decide, Or.inl (by decide),
    C8_frozen_region 2 2 2 2 1 pgbg3 1 gbg3 (by decide) 0 0 (by decide) (by decide)
      (Or.inl (by decide))⟩

/-- C2: at step `s`, the division stage: `a00` is the pivot diagonal
`A[s][s]` extracted (before any division) into `pivot[0][s]`; every logical
row `j` with `s < j < m` gets `A[j][s] = A[j][s] / a00`, and no other cell
of the buffer is modified by the division stage, so column `s` below the
diagonal then holds the step-`s` L multipliers. -/
theorem C2_division_stage (m n NCU s : ℕ) (M : Mat3) (pg0 : ℕ → ℕ → Val)
    (hcu : 1 ≤ NCU) (hsn : s < n) (hsm : s < m) :
    (pivotStage NCU n s M pg0 0 s = view NCU M s s)
    ∧ (∀ j, s < j → j < m →
        divStage NCU m s (pivotStage NCU n s M pg0 0 s) M (j % NCU) (j / NCU) s
        = view NCU M j s / view NCU M s s)
    ∧ (∀ i lr c, ¬(i < NCU ∧ c = s ∧ s + 1 ≤ lr * NCU + i ∧ lr * NCU + i < m) →
        divStage NCU m s (pivotStage NCU n s M pg0 0 s) M i lr c = M i lr c) := by
  have hp : pivotStage NCU n s M pg0 0 s = view NCU M s s := by
    rw [pivotStage_eq, if_pos (show s ≤ s ∧ s < n ∧ 0 < NCU from ⟨le_rfl, hsn, by omega⟩)]
    rfl
  refine ⟨hp, ?_, ?_⟩
  · intro j hj hjm
    have hjrec : j / NCU * NCU + j % NCU = j := lane_recomp NCU j
    have hjm' : j % NCU < NCU := Nat.mod_lt _ (by omega)
    rw [divStage_eq _ _ _ _ _ hcu,
      if_pos (show j % NCU < NCU ∧ s = s ∧ s + 1 ≤ j / NCU * NCU + j % NCU
        ∧ j / NCU * NCU + j % NCU < m from ⟨hjm', rfl, by omega, by omega⟩), hp]
    rfl
  · intro i lr c hout
    rw [divStage_eq _ _ _ _ _ hcu, if_neg hout]

/-- C2 witness: a 2×1 system with one lane: the single subdiagonal entry
is divided by the pivot diagonal. -/
theorem C2_division_stage_witness :
    (1 : ℕ) ≤ 1 ∧ (0 : ℕ) < 1 ∧ (0 : ℕ) < 2 ∧
    divStage 1 2 0 (pivotStage 1 1 0 gbg3 (pgbg3 0) 0 0) gbg3 (1 % 1) (1 / 1) 0
    = view 1 gbg3 1 0 / view 1 gbg3 0 0 :=
  ⟨by decide, by decide, by decide,
    (C2_division_stage 2 1 1 0 gbg3 (pgbg3 0) (by decide) (by decide) (by decide)).2.1
      1 (by decide) (by decide)⟩

/-- C3: at step `s`, the update stage: each lane `i` starts at local offset
`s/NCU + 1` when `i ≤ s mod NCU` and at `s/NCU` otherwise, and the logical
effect is exactly: every logical cell `(r, c)` with `r > s` and `c > s`
becomes `A[r][c] - A[r][s] * P c` (where `P` is the lane-replicated pivot
row), and every other logical cell is unchanged. -/
theorem C3_update_stage (m n NRCU NCMAX NCU s : ℕ) (piv : ℕ → ℕ → Val) (P : ℕ → Val)
    (D : Mat3) (hcu : 1 ≤ NCU) (hm : m ≤ NCU * NRCU) (hn : n ≤ NCMAX)
    (hpiv : ∀ i c, i < NCU → s < c → c < n → piv i c = P c) :
    (∀ i, i ≤ s % NCU → rsOf NCU s i = s / NCU + 1)
    ∧ (∀ i, s % NCU < i → rsOf NCU s i = s / NCU)
    ∧ (∀ r c, r < m → c < n →
        view NCU (matStage NCU NRCU NCMAX s piv D) r c
        = if s < r ∧ s < c then view NCU D r c - view NCU D r s * P c
          else view NCU D r c) := by
  refine ⟨?_, ?_, ?_⟩
  · intro i hi
    rw [rsOf, if_pos hi]
  · intro i hi
    rw [rsOf, if_neg (by omega)]
  · intro r c hr hc
    have hrm : r % NCU < NCU := Nat.mod_lt _ (by omega)
    have hrec : r / NCU * NCU + r % NCU = r := lane_recomp NCU r
    have hlr : r / NCU ≤ NRCU - 1 := by
      have hm' : m ≤ NRCU * NCU := by rwa [Nat.mul_comm] at hm
      have h4 : r / NCU < NRCU := (Nat.div_lt_iff_lt_mul (by omega)).mpr (by omega)
      omega
    simp only [view]
    rw [matStage_eq, if_pos hrm, rowUpdate_eq]
    by_cases hsr : s < r
    · by_cases hsc : s < c
      · rw [if_pos (show rsOf NCU s (r % NCU) ≤ r / NCU ∧ r / NCU ≤ NRCU - 1 ∧ s + 1 ≤ c
          ∧ c ≤ NCMAX - 1 from ⟨(rsOf_le_iff NCU s r hcu).mpr hsr, hlr, by omega, by omega⟩)]
        rw [hpiv (r % NCU) c hrm hsc hc, if_pos ⟨hsr, hsc⟩]
      · rw [if_neg (show ¬(rsOf NCU s (r % NCU) ≤ r / NCU ∧ r / NCU ≤ NRCU - 1 ∧ s + 1 ≤ c
            ∧ c ≤ NCMAX - 1) by omega)]
        rw [if_neg (by omega)]
    · have hnotrs : ¬ rsOf NCU s (r % NCU) ≤ r / NCU := by
        rw [rsOf_le_iff NCU s r hcu]
        omega
      rw [if_neg (show ¬(rsOf NCU s (r % NCU) ≤ r / NCU ∧ r / NCU ≤ NRCU - 1 ∧ s + 1 ≤ c
          ∧ c ≤ NCMAX - 1) from fun h => hnotrs h.1)]
      rw [if_neg (by omega)]

/-- C3 witness: a 2×2 system, one lane, step 0: cell (1,1) receives the
rank-1 update against the constant pivot row `pivP`. -/
theorem C3_update_stage_witness :
    (1 : ℕ) ≤ 1 ∧ (2 : ℕ) ≤ 1 * 2 ∧ (1 : ℕ) < 2 ∧
    view 1 (matStage 1 2 2 0 pivc gbg3) 1 1
    = (if 0 < 1 ∧ 0 < 1 then view 1 gbg3 1 1 - view 1 gbg3 1 0 * pivP 1
        else view 1 gbg3 1 1) :=
  ⟨by decide, by decide, by decide,
    (C3_update_stage 2 2 2 2 1 0 pivc pivP gbg3 (by decide) (by decide) (by decide)
      (fun i c _ _ _ => rfl)).2.2 1 1 (by decide) (by decide)⟩

/-- C1: for every `m × n` input with `1 ≤ m ≤ NRMAX`, `1 ≤ n ≤ NCMAX` whose
leading principal minors are all nonzero, running `getrf_nopivot` and
multiplying the unit-lower-triangular `L` (strict lower part of the output
buffer, implicit unit diagonal) by the upper-triangular `U` (upper part
including the diagonal) reproduces the original `A` exactly. -/
theorem C1_lu_reconstruction (NRMAX NCMAX NCU m n lda : ℕ) (A : ℕ → Val) (info : ℤ)
    (g : Mat3) (pg : ℕ → ℕ → ℕ → Val)
    (hm1 : 1 ≤ m) (hmN : m ≤ NRMAX) (hn1 : 1 ≤ n) (hnN : n ≤ NCMAX)
    (hcu : 1 ≤ NCU) (hlda : n ≤ lda)
    (hminors : ∀ k, 1 ≤ k → k ≤ min m n → leadingMinor lda k A ≠ 0) :
    lfactor m lda ((getrf_nopivot NRMAX NCMAX NCU m n A lda info g pg).1)
      * ufactor m n lda ((getrf_nopivot NRMAX NCMAX NCU m n A lda info g pg).1)
    = Matrix.of fun (i : Fin m) (j : Fin n) => A (lda * (i : ℕ) + (j : ℕ)) := by
  have hOG : ∀ r c, r < m → c < n →
      (getrf_nopivot NRMAX NCMAX NCU m n A lda info g pg).1 (r * lda + c)
      = gauss m n (extMat lda A) r c := by
    intro r c hr hc
    rw [getrf_out_eq NRMAX NCMAX NCU m n lda A info g pg hcu hmN hnN]
    exact refWrite_read _ _ hlda hr hc
  have hminors' : ∀ k, 1 ≤ k → k ≤ min m n →
      Matrix.det (Matrix.of fun i j : Fin k => extMat lda A (i : ℕ) (j : ℕ)) ≠ 0 := by
    intro k h1 h2
    exact hminors k h1 h2
  ext i j
  have hi := i.isLt
  have hj := j.isLt
  rw [Matrix.mul_apply]
  have hterm : ∀ k : Fin m,
      lfactor m lda ((getrf_nopivot NRMAX NCMAX NCU m n A lda info g pg).1) i k
        * ufactor m n lda ((getrf_nopivot NRMAX NCMAX NCU m n A lda info g pg).1) k j
      = (if (k : ℕ) = (i : ℕ) then (1 : Val)
          else if (k : ℕ) < (i : ℕ) then gauss m n (extMat lda A) i k else 0)
        * (if (k : ℕ) ≤ (j : ℕ) then gauss m n (extMat lda A) k j else 0) := by
    intro k
    have hk := k.isLt
    simp only [lfactor, ufactor, Matrix.of_apply]
    by_cases h1 : (k : ℕ) ≤ (j : ℕ)
    · rw [if_pos h1, if_pos h1]
      have hU : (getrf_nopivot NRMAX NCMAX NCU m n A lda info g pg).1 (lda * (k : ℕ) + (j : ℕ))
          = gauss m n (extMat lda A) k j := by
        rw [show lda * (k : ℕ) + (j : ℕ) = (k : ℕ) * lda + (j : ℕ) by ring]
        exact hOG k j hk hj
      rw [hU]
      by_cases h2 : (k : ℕ) = (i : ℕ)
      · rw [if_pos h2, if_pos h2]
      · rw [if_neg h2, if_neg h2]
        by_cases h3 : (k : ℕ) < (i : ℕ)
        · rw [if_pos h3, if_pos h3]
          have hL : (getrf_nopivot NRMAX NCMAX NCU m n A lda info g pg).1
              (lda * (i : ℕ) + (k : ℕ)) = gauss m n (extMat lda A) i k := by
            rw [show lda * (i : ℕ) + (k : ℕ) = (i : ℕ) * lda + (k : ℕ) by ring]
            exact hOG i k hi (by omega)
          rw [hL]
        · rw [if_neg h3, if_neg h3]
    · rw [if_neg h1, if_neg h1, mul_zero, mul_zero]
  rw [Finset.sum_congr rfl (fun k _ => hterm k)]
  rw [Fin.sum_univ_eq_sum_range (fun k =>
    (if k = (i : ℕ) then (1 : Val)
      else if k < (i : ℕ) then gauss m n (extMat lda A) i k else 0)
    * (if k ≤ (j : ℕ) then gauss m n (extMat lda A) k j else 0)) m]
  rw [gauss_recon (extMat lda A) m n hminors' i j hi hj]
  simp [extMat, Matrix.of_apply]

/-- C1 witness: the well-conditioned 2×2 companion scenario has nonzero
leading minors, and decomposition followed by the `L·U` product reproduces
the input exactly. -/
theorem C1_lu_reconstruction_witness :
    leadingMinor 2 1 exB2 ≠ 0 ∧ leadingMinor 2 2 exB2 ≠ 0 ∧
    lfactor 2 2 ((getrf_nopivot 2 2 1 2 2 exB2 2 0 gbg3 pgbg3).1)
      * ufactor 2 2 2 ((getrf_nopivot 2 2 1 2 2 exB2 2 0 gbg3 pgbg3).1)
    = Matrix.of fun (i j : Fin 2) => exB2 (2 * (i : ℕ) + (j : ℕ)) :=
  ⟨by norm_num [leadingMinor, Matrix.det_fin_one, Matrix.of_apply, exB2],
    by norm_num [leadingMinor, Matrix.det_fin_two, Matrix.of_apply, exB2],
    C1_lu_reconstruction 2 2 1 2 2 2 exB2 0 gbg3 pgbg3
      (by decide) (by decide) (by decide) (by decide) (by decide) (by decide)
      (by
        intro k h1 h2
        have h2' : k ≤ 2 := by omega
        interval_cases k
        · norm_num [leadingMinor, Matrix.det_fin_one, Matrix.of_apply, exB2]
        · norm_num [leadingMinor, Matrix.det_fin_two, Matrix.of_apply, exB2])⟩

/-- C4 counterexample: the claim predicts the combined output buffer
`[[4,3,2],[0.5,-0.5,0],[0.25,1,0]]` for the 3×3 scenario, i.e. entry
`(2,1)` (offset 7) equal to 1; the code produces `-1/2` there. -/
theorem C4_concrete_counterexample :
    (getrf_nopivot 3 3 1 3 3 exA3 3 0 gbg3 pgbg3).1 7 ≠ 1 := by
  rw [getrf_out_eq 3 3 1 3 3 3 exA3 0 gbg3 pgbg3 (by norm_num) (by norm_num) (by norm_num)]
  rw [show (7 : ℕ) = 2 * 3 + 1 from rfl]
  rw [refWrite_read _ _ (by norm_num) (by norm_num) (by norm_num)]
  have hg : gauss 3 3 (extMat 3 exA3) = gstep 3 3 1 (gstep 3 3 0 (extMat 3 exA3)) := rfl
  rw [hg]
  norm_num [gstep, extMat, exA3]

/-- C4 (amended): decomposing `A = [[4,3,2],[2,1,1],[1,1,1]]` produces the
combined buffer `[[4,3,2],[1/2,-1/2,0],[1/4,-1/2,1/2]]` — the last pivot is
`1/2`, nonzero, so this example is not singular at the last pivot — and the
companion `A = [[4,3],[6,3]]` satisfies `L·U = A` exactly. -/
theorem C4_concrete_amended :
    (getrf_nopivot 3 3 1 3 3 exA3 3 0 gbg3 pgbg3).1 0 = 4
    ∧ (getrf_nopivot 3 3 1 3 3 exA3 3 0 gbg3 pgbg3).1 1 = 3
    ∧ (getrf_nopivot 3 3 1 3 3 exA3 3 0 gbg3 pgbg3).1 2 = 2
    ∧ (getrf_nopivot 3 3 1 3 3 exA3 3 0 gbg3 pgbg3).1 3 = 1 / 2
    ∧ (getrf_nopivot 3 3 1 3 3 exA3 3 0 gbg3 pgbg3).1 4 = -(1 / 2)
    ∧ (getrf_nopivot 3 3 1 3 3 exA3 3 0 gbg3 pgbg3).1 5 = 0
    ∧ (getrf_nopivot 3 3 1 3 3 exA3 3 0 gbg3 pgbg3).1 6 = 1 / 4
    ∧ (getrf_nopivot 3 3 1 3 3 exA3 3 0 gbg3 pgbg3).1 7 = -(1 / 2)
    ∧ (getrf_nopivot 3 3 1 3 3 exA3 3 0 gbg3 pgbg3).1 8 = 1 / 2
    ∧ (getrf_nopivot 3 3 1 3 3 exA3 3 0 gbg3 pgbg3).1 8 ≠ 0
    ∧ lfactor 2 2 ((getrf_nopivot 2 2 1 2 2 exB2 2 0 gbg3 pgbg3).1)
        * ufactor 2 2 2 ((getrf_nopivot 2 2 1 2 2 exB2 2 0 gbg3 pgbg3).1)
      = Matrix.of fun (i j : Fin 2) => exB2 (2 * (i : ℕ) + (j : ℕ)) := by
  have hval : ∀ r c, r < 3 → c < 3 →
      (getrf_nopivot 3 3 1 3 3 exA3 3 0 gbg3 pgbg3).1 (r * 3 + c)
      = gstep 3 3 1 (gstep 3 3 0 (extMat 3 exA3)) r c := by
    intro r c hr hc
    rw [getrf_out_eq 3 3 1 3 3 3 exA3 0 gbg3 pgbg3 (by norm_num) (by norm_num) (by norm_num)]
    rw [refWrite_read _ _ (by norm_num) hr hc]
    rfl
  have e00 := hval 0 0 (by norm_num) (by norm_num)
  have e01 := hval 0 1 (by norm_num) (by norm_num)
  have e02 := hval 0 2 (by norm_num) (by norm_num)
  have e10 := hval 1 0 (by norm_num) (by norm_num)
  have e11 := hval 1 1 (by norm_num) (by norm_num)
  have e12 := hval 1 2 (by norm_num) (by norm_num)
  have e20 := hval 2 0 (by norm_num) (by norm_num)
  have e21 := hval 2 1 (by norm_num) (by norm_num)
  have e22 := hval 2 2 (by norm_num) (by norm_num)
  norm_num [gstep, extMat, exA3] at e00 e01 e02 e10 e11 e12 e20 e21 e22
  have hval2 : ∀ r c, r < 2 → c < 2 →
      (getrf_nopivot 2 2 1 2 2 exB2 2 0 gbg3 pgbg3).1 (r * 2 + c)
      = gstep 2 2 0 (extMat 2 exB2) r c := by
    intro r c hr hc
    rw [getrf_out_eq 2 2 1 2 2 2 exB2 0 gbg3 pgbg3 (by norm_num) (by norm_num) (by norm_num)]
    rw [refWrite_read _ _ (by norm_num) hr hc]
    rfl
  have b00 := hval2 0 0 (by norm_num) (by norm_num)
  have b01 := hval2 0 1 (by norm_num) (by norm_num)
  have b10 := hval2 1 0 (by norm_num) (by norm_num)
  have b11 := hval2 1 1 (by norm_num) (by norm_num)
  norm_num [gstep, extMat, exB2] at b00 b01 b10 b11
  refine ⟨e00, e01, e02, e10, e11, e12, e20, e21, e22, ?_, ?_⟩
  · rw [e22]
    norm_num
  · ext i j
    fin_cases i <;> fin_cases j <;>
      simp [lfactor, ufactor, Matrix.mul_apply, Fin.sum_univ_two, Matrix.of_apply,
        exB2, b00, b01, b10, b11] <;>
      norm_num

end XfSolver
